import Mathlib

/-!
Verification of transcribe-yt.

Shallow embedding, in Lean, of the algorithmic core of the repository:

* the overlapping audio-window loop of transcribe_audio_chunked
  (src/transcription.py), embedded as a fuel-indexed recursion over the
  integer sample positions of the Python while loop;
* the per-window transcript accumulation and space-join of
  transcribe_audio_chunked;
* the sentence-grouping loop of chunk_text (src/transcription.py);
* the top-sentence selection of generate_summary_extractive
  (src/summarization.py);
* the bounded link-history push of save_link_to_history and the
  defaults-merging of load_config (src/config.py, src/transcribe_yt.py);
* the formatting fallback of apply_ollama_formatting
  (src/summarization.py).

Machine integers of the source are Python arbitrary-precision ints and are
embedded as Int (sample positions) or Nat (word counts, list lengths).
-/

/-! ## Audio windowing: transcribe_audio_chunked (src/transcription.py)

The Python loop, with audio length total (samples), chunk_samples and
overlap_samples:

  start_sample = 0
  while start_sample < len(audio):
      end_sample = min(start_sample + chunk_samples, len(audio))
      emit window (start_sample, end_sample)
      start_sample = end_sample - overlap_samples
      if start_sample >= len(audio) - overlap_samples:
          break

The recursion is indexed by a fuel argument because for
chunk_samples <= overlap_samples the Python loop need not terminate
(the spec notes this explicitly); the adequacy of the fuel under
overlap_samples < chunk_samples is proved below.
-/

def chunkWindowsFuel (total chunk_samples overlap_samples : Int) :
    Nat → Int → List (Int × Int)
  | 0, _ => []
  | fuel + 1, start_sample =>
    if start_sample < total then
      (start_sample, min (start_sample + chunk_samples) total) ::
        (if total - overlap_samples ≤
            min (start_sample + chunk_samples) total - overlap_samples then []
         else
           chunkWindowsFuel total chunk_samples overlap_samples fuel
             (min (start_sample + chunk_samples) total - overlap_samples))
    else []

/-- The windows produced by the chunked-transcription loop, started at
sample 0 with fuel that is proved sufficient whenever
overlap_samples < chunk_samples. -/
def chunkWindows (total chunk_samples overlap_samples : Int) : List (Int × Int) :=
  chunkWindowsFuel total chunk_samples overlap_samples (total.toNat + 1) 0

lemma chunkWindowsFuel_succ (total cs os : Int) (fuel : Nat) (s : Int) :
    chunkWindowsFuel total cs os (fuel + 1) s =
      if s < total then
        (s, min (s + cs) total) ::
          (if total - os ≤ min (s + cs) total - os then []
           else chunkWindowsFuel total cs os fuel (min (s + cs) total - os))
      else [] := rfl

/-- In the continuing branch of the loop the window end is start + chunk. -/
lemma min_eq_add_of_not_break (total cs os s : Int)
    (hbreak : ¬ total - os ≤ min (s + cs) total - os) :
    min (s + cs) total = s + cs := by
  rcases le_total (s + cs) total with h | h
  · exact min_eq_left h
  · exfalso
    rw [min_eq_right h] at hbreak
    omega

/-- The loop result does not depend on the fuel, as soon as the fuel
exceeds the number of samples still ahead of the cursor. -/
lemma chunkWindowsFuel_stable (total cs os : Int)
    (hov : 0 ≤ os) (hoc : os < cs) :
    ∀ (f1 f2 : Nat) (s : Int), (total - s).toNat < f1 → (total - s).toNat < f2 →
      chunkWindowsFuel total cs os f1 s = chunkWindowsFuel total cs os f2 s := by
  intro f1
  induction f1 with
  | zero => intro f2 s h1 _; exact absurd h1 (Nat.not_lt_zero _)
  | succ k ih =>
    intro f2 s h1 h2
    cases f2 with
    | zero => exact absurd h2 (Nat.not_lt_zero _)
    | succ j =>
      rw [chunkWindowsFuel_succ, chunkWindowsFuel_succ]
      by_cases hs : s < total
      · simp only [if_pos hs]
        by_cases hbreak : total - os ≤ min (s + cs) total - os
        · simp [hbreak]
        · simp only [if_neg hbreak]
          have hmin := min_eq_add_of_not_break total cs os s hbreak
          have hlt : min (s + cs) total < total := by omega
          rw [hmin] at hbreak hlt ⊢
          congr 1
          exact ih j (s + cs - os) (by omega) (by omega)
      · simp [hs]

/-- Every produced window starts at the cursor position. -/
lemma chunkWindowsFuel_head (total cs os : Int) (fuel : Nat) (s : Int)
    (p : Int × Int)
    (hp : (chunkWindowsFuel total cs os fuel s).head? = some p) : p.1 = s := by
  cases fuel with
  | zero => simp [chunkWindowsFuel] at hp
  | succ k =>
    rw [chunkWindowsFuel_succ] at hp
    by_cases hs : s < total
    · rw [if_pos hs] at hp
      simp only [List.head?_cons, Option.some.injEq] at hp
      rw [← hp]
    · rw [if_neg hs] at hp
      simp at hp

/-- Relation holding between a window and its successor in the loop
output: the successor starts overlap_samples before the end of its
predecessor, the predecessor has exactly chunk length, and the loop
continued only because the stop condition had not yet been reached. -/
def windowRel (total cs os : Int) (a b : Int × Int) : Prop :=
  b.1 = a.2 - os ∧ a.2 - a.1 = cs ∧ a.2 - os < total - os

lemma chunkWindowsFuel_chain (total cs os : Int) :
    ∀ (fuel : Nat) (s : Int),
      List.Chain' (windowRel total cs os) (chunkWindowsFuel total cs os fuel s) := by
  intro fuel
  induction fuel with
  | zero => intro s; simp [chunkWindowsFuel]
  | succ k ih =>
    intro s
    rw [chunkWindowsFuel_succ]
    by_cases hs : s < total
    · rw [if_pos hs]
      by_cases hbreak : total - os ≤ min (s + cs) total - os
      · simp [hbreak]
      · rw [if_neg hbreak]
        refine List.chain'_cons'.mpr ⟨?_, ih _⟩
        intro b hb
        have hb1 := chunkWindowsFuel_head total cs os k _ b hb
        have hmin := min_eq_add_of_not_break total cs os s hbreak
        refine ⟨hb1, by omega, by omega⟩
    · simp [hs]

/-- With sufficient fuel, the loop always produces a final window that
ends exactly at the last sample: coverage reaches the full duration. -/
lemma chunkWindowsFuel_last (total cs os : Int)
    (hov : 0 ≤ os) (hoc : os < cs) :
    ∀ (fuel : Nat) (s : Int), s < total → (total - s).toNat < fuel →
      ∃ a, (chunkWindowsFuel total cs os fuel s).getLast? = some (a, total) := by
  intro fuel
  induction fuel with
  | zero => intro s _ h1; exact absurd h1 (Nat.not_lt_zero _)
  | succ k ih =>
    intro s hs h1
    rw [chunkWindowsFuel_succ, if_pos hs]
    by_cases hbreak : total - os ≤ min (s + cs) total - os
    · rw [if_pos hbreak]
      have hmin : min (s + cs) total = total := by
        have hle : min (s + cs) total ≤ total := min_le_right _ _
        omega
      exact ⟨s, by rw [hmin]; rfl⟩
    · rw [if_neg hbreak]
      have hmin := min_eq_add_of_not_break total cs os s hbreak
      rw [hmin] at hbreak ⊢
      obtain ⟨a, ha⟩ := ih (s + cs - os) (by omega) (by omega)
      have hne : chunkWindowsFuel total cs os k (s + cs - os) ≠ [] := by
        intro hnil
        rw [hnil] at ha
        simp at ha
      rcases hrest : chunkWindowsFuel total cs os k (s + cs - os) with _ | ⟨r, rs⟩
      · exact absurd hrest hne
      · rw [hrest] at ha
        exact ⟨a, by rw [List.getLast?_cons_cons]; exact ha⟩

/-- The loop emits at most one window per unit of fuel. -/
lemma chunkWindowsFuel_length_le (total cs os : Int) :
    ∀ (fuel : Nat) (s : Int),
      (chunkWindowsFuel total cs os fuel s).length ≤ fuel := by
  intro fuel
  induction fuel with
  | zero => intro s; simp [chunkWindowsFuel]
  | succ k ih =>
    intro s
    rw [chunkWindowsFuel_succ]
    by_cases hs : s < total
    · rw [if_pos hs]
      by_cases hbreak : total - os ≤ min (s + cs) total - os
      · simp [hbreak]
      · rw [if_neg hbreak]
        simpa using Nat.succ_le_succ (ih _)
    · simp [hs]

lemma chunkWindows_head (total cs os : Int) (htot : 0 < total) :
    (chunkWindows total cs os).head? = some (0, min cs total) := by
  unfold chunkWindows
  rw [chunkWindowsFuel_succ, if_pos htot]
  simp

/-- C1: for every audio of duration D seconds and parameters
chunk_duration C and overlap_duration O with D > C and O < C (sample
rate sr, so positions are seconds times sr), the chunked windowing of
transcribe_audio_chunked produces windows in which window 0 starts at
sample 0 with length exactly C, every window after the first starts
exactly O seconds before the end of its predecessor, every window
except possibly the last has length exactly C, and the final window
ends exactly at duration D; in particular D=700, C=300, O=30 (sr=1)
yields the three windows [0,300), [270,570), [540,700). -/
theorem transcribe_audio_chunked_window_layout
    (sr chunk_duration overlap_duration duration : Int)
    (hsr : 1 ≤ sr) (hov : 0 ≤ overlap_duration)
    (hoc : overlap_duration < chunk_duration) (hcd : chunk_duration < duration) :
    (chunkWindows (duration * sr) (chunk_duration * sr) (overlap_duration * sr)).head?
        = some (0, chunk_duration * sr)
    ∧ List.Chain'
        (fun a b => b.1 = a.2 - overlap_duration * sr ∧ a.2 - a.1 = chunk_duration * sr)
        (chunkWindows (duration * sr) (chunk_duration * sr) (overlap_duration * sr))
    ∧ (∃ a, (chunkWindows (duration * sr) (chunk_duration * sr) (overlap_duration * sr)).getLast?
        = some (a, duration * sr))
    ∧ chunkWindows 700 300 30 = [(0, 300), (270, 570), (540, 700)] := by
  have hsr0 : (0 : Int) < sr := by omega
  have h1 : 0 ≤ overlap_duration * sr := mul_nonneg hov (by omega)
  have h2 : overlap_duration * sr < chunk_duration * sr :=
    mul_lt_mul_of_pos_right hoc hsr0
  have h3 : chunk_duration * sr < duration * sr :=
    mul_lt_mul_of_pos_right hcd hsr0
  have h4 : (0 : Int) < duration * sr := by omega
  refine ⟨?_, ?_, ?_, ?_⟩
  · rw [chunkWindows_head _ _ _ h4, min_eq_left (le_of_lt h3)]
  · exact (chunkWindowsFuel_chain _ _ _ _ _).imp fun a b h => ⟨h.1, h.2.1⟩
  · exact chunkWindowsFuel_last (duration * sr) (chunk_duration * sr)
      (overlap_duration * sr) h1 h2 _ 0 h4 (by omega)
  · decide

theorem transcribe_audio_chunked_window_layout_witness :
    chunkWindows 700 300 30 = [(0, 300), (270, 570), (540, 700)] :=
  (transcribe_audio_chunked_window_layout 1 300 30 700 (by decide) (by decide)
    (by decide) (by decide)).2.2.2

/-- C2: for every finite sample array and overlap_samples < chunk_samples,
the window loop of transcribe_audio_chunked terminates after finitely many
windows: the result is independent of any sufficient fuel, the number of
windows is bounded, every iteration moves the window start strictly
forward, production continues only while start_sample (the end of the
previous window minus the overlap) is below total - overlap, and the
loop stops as soon as the next start reaches total - overlap. -/
theorem transcribe_audio_chunked_termination
    (total_samples chunk_samples overlap_samples : Int)
    (htot : 0 ≤ total_samples) (hov : 0 ≤ overlap_samples)
    (hoc : overlap_samples < chunk_samples) :
    (∀ fuel : Nat, total_samples.toNat < fuel →
        chunkWindowsFuel total_samples chunk_samples overlap_samples fuel 0
          = chunkWindows total_samples chunk_samples overlap_samples)
    ∧ (chunkWindows total_samples chunk_samples overlap_samples).length
        ≤ total_samples.toNat + 1
    ∧ List.Chain'
        (fun a b => a.1 < b.1 ∧ a.2 - overlap_samples < total_samples - overlap_samples)
        (chunkWindows total_samples chunk_samples overlap_samples)
    ∧ ∀ p : Int × Int,
        (chunkWindows total_samples chunk_samples overlap_samples).getLast? = some p →
          total_samples - overlap_samples ≤ p.2 - overlap_samples := by
  refine ⟨?_, ?_, ?_, ?_⟩
  · intro fuel hfuel
    exact chunkWindowsFuel_stable total_samples chunk_samples overlap_samples hov hoc
      fuel (total_samples.toNat + 1) 0 (by omega) (by omega)
  · exact chunkWindowsFuel_length_le _ _ _ _ _
  · refine (chunkWindowsFuel_chain _ _ _ _ _).imp fun a b h => ⟨?_, h.2.2⟩
    obtain ⟨hb1, hlen, _⟩ := h
    omega
  · intro p hp
    by_cases htpos : 0 < total_samples
    · obtain ⟨a, ha⟩ := chunkWindowsFuel_last total_samples chunk_samples
        overlap_samples hov hoc (total_samples.toNat + 1) 0 htpos (by omega)
      have : some p = some (a, total_samples) := by rw [← hp]; exact ha
      have hp2 : p.2 = total_samples := by
        cases this
        rfl
      omega
    · have hnil : chunkWindows total_samples chunk_samples overlap_samples = [] := by
        unfold chunkWindows
        rw [chunkWindowsFuel_succ, if_neg htpos]
      rw [hnil] at hp
      simp at hp

theorem transcribe_audio_chunked_termination_witness :
    (chunkWindows 10 3 1).length ≤ (10 : Int).toNat + 1 :=
  (transcribe_audio_chunked_termination 10 3 1 (by decide) (by decide) (by decide)).2.1

/-! ## Per-window transcript accumulation (src/transcription.py)

Inside the window loop of transcribe_audio_chunked, the ASR call on one
window either raises an exception or produces no output (modelled as
none), or returns a raw text (modelled as some text):

  try:
      output = asr_model.transcribe([chunk_path])
      if output and len(output) > 0:
          chunk_text = output[0].text.strip()
          if chunk_text:
              transcriptions.append(chunk_text)
  except Exception:
      pass   # logged and skipped
  ...
  full_transcription = " ".join(transcriptions)
-/

def transcription_step (transcriptions : List String) (outcome : Option String) :
    List String :=
  match outcome with
  | some text => if text.trim = "" then transcriptions else transcriptions ++ [text.trim]
  | none => transcriptions

def collectTranscriptions (outcomes : List (Option String)) : List String :=
  outcomes.foldl transcription_step []

def combineTranscriptions (outcomes : List (Option String)) : String :=
  String.intercalate " " (collectTranscriptions outcomes)

lemma collectTranscriptions_foldl (outcomes : List (Option String)) :
    ∀ acc : List String,
      outcomes.foldl transcription_step acc =
        acc ++ ((outcomes.filterMap id).map String.trim).filter
          (fun t => decide (t ≠ "")) := by
  induction outcomes with
  | nil => intro acc; simp
  | cons o rest ih =>
    intro acc
    cases o with
    | none => simp [transcription_step, ih]
    | some s =>
      by_cases h : s.trim = ""
      · simp [transcription_step, h, ih]
      · simp [transcription_step, h, ih]

/-- C3: in chunked transcription, for every sequence of per-window ASR
outcomes, the returned transcript is the single-space join, in window
order, of the trimmed texts of the successful windows whose trimmed text
is non-empty; a window whose ASR call raises (or yields nothing) is
skipped without aborting the job and leaves no gap marker, so removing
its outcome from the sequence leaves the transcript unchanged. -/
theorem transcribe_audio_chunked_join_skips_failures :
    ∀ outcomes : List (Option String),
      combineTranscriptions outcomes =
        String.intercalate " "
          (((outcomes.filterMap id).map String.trim).filter (fun t => decide (t ≠ "")))
      ∧ ∀ pre post : List (Option String),
          combineTranscriptions (pre ++ none :: post) =
            combineTranscriptions (pre ++ post) := by
  intro outcomes
  constructor
  · unfold combineTranscriptions collectTranscriptions
    rw [collectTranscriptions_foldl]
    rfl
  · intro pre post
    unfold combineTranscriptions collectTranscriptions
    rw [List.foldl_append, List.foldl_append, List.foldl_cons]
    rfl

theorem transcribe_audio_chunked_join_skips_failures_witness :
    combineTranscriptions ([some "hello"] ++ none :: [some " world "]) =
      combineTranscriptions ([some "hello"] ++ [some " world "]) :=
  (transcribe_audio_chunked_join_skips_failures
      [some "hello", none, some " world "]).2 [some "hello"] [some " world "]

/-! ## Text chunking: chunk_text (src/transcription.py)

chunk_text first splits the text into sentences with
re.split at punctuation-boundary whitespace; the sentence list is the
input of the embedding below, which models the grouping loop:

  chunks, current_chunk, current_word_count = [], [], 0
  for sentence in sentences:
      sentence_words = len(sentence.split())
      if current_word_count + sentence_words > chunk_size and current_chunk:
          chunks.append(' '.join(current_chunk))
          current_chunk = [sentence]
          current_word_count = sentence_words
      else:
          current_chunk.append(sentence)
          current_word_count += sentence_words
  if current_chunk:
      chunks.append(' '.join(current_chunk))

The chunks are modelled as the groups of sentences they join; chunk_text
is the single-space join of each group.
-/

/-- ASCII whitespace as recognised by the str.split of Python. -/
def pyIsSpace (c : Char) : Bool :=
  c == ' ' || c == '\t' || c == '\n' || c == '\r' || c == '\x0B' || c == '\x0C'

/-- Number of maximal non-whitespace runs: len(sentence.split()). -/
def countWordsAux : List Char → Bool → Nat
  | [], _ => 0
  | c :: rest, inWord =>
    if pyIsSpace c then countWordsAux rest false
    else (if inWord then 0 else 1) + countWordsAux rest true

def sentence_words (sentence : String) : Nat :=
  countWordsAux sentence.toList false

def chunkLoop (chunk_size : Nat) :
    List String → List (List String) → List String → Nat → List (List String)
  | [], chunks, current_chunk, _ =>
    if current_chunk.isEmpty then chunks else chunks ++ [current_chunk]
  | sentence :: rest, chunks, current_chunk, current_word_count =>
    if current_word_count + sentence_words sentence > chunk_size ∧ current_chunk ≠ [] then
      chunkLoop chunk_size rest (chunks ++ [current_chunk]) [sentence]
        (sentence_words sentence)
    else
      chunkLoop chunk_size rest chunks (current_chunk ++ [sentence])
        (current_word_count + sentence_words sentence)

/-- The sentence groups of the chunks returned by chunk_text. -/
def chunkGroups (sentences : List String) (chunk_size : Nat) : List (List String) :=
  chunkLoop chunk_size sentences [] [] 0

/-- chunk_text, with the text already split into its sentences. -/
def chunk_text (sentences : List String) (chunk_size : Nat) : List String :=
  (chunkGroups sentences chunk_size).map (fun chunk => String.intercalate " " chunk)

lemma chunkLoop_join (chunk_size : Nat) :
    ∀ (ss : List String) (chunks : List (List String)) (cur : List String) (cnt : Nat),
      (chunkLoop chunk_size ss chunks cur cnt).join = chunks.join ++ cur ++ ss := by
  intro ss
  induction ss with
  | nil =>
    intro chunks cur cnt
    by_cases h : cur.isEmpty
    · rw [List.isEmpty_iff] at h
      simp [chunkLoop, h]
    · simp [chunkLoop, h]
  | cons s rest ih =>
    intro chunks cur cnt
    rw [chunkLoop]
    by_cases h : cnt + sentence_words s > chunk_size ∧ cur ≠ []
    · rw [if_pos h, ih]
      simp
    · rw [if_neg h, ih]
      simp

lemma chunkLoop_ne_nil (chunk_size : Nat) :
    ∀ (ss : List String) (chunks : List (List String)) (cur : List String) (cnt : Nat),
      (∀ g ∈ chunks, g ≠ []) →
      ∀ g ∈ chunkLoop chunk_size ss chunks cur cnt, g ≠ [] := by
  intro ss
  induction ss with
  | nil =>
    intro chunks cur cnt hchunks g hg
    by_cases h : cur.isEmpty
    · rw [chunkLoop, if_pos h] at hg
      exact hchunks g hg
    · rw [chunkLoop, if_neg h] at hg
      rcases List.mem_append.mp hg with hg | hg
      · exact hchunks g hg
      · have : g = cur := by simpa using hg
        rw [this]
        simpa [List.isEmpty_iff] using h
  | cons s rest ih =>
    intro chunks cur cnt hchunks g hg
    rw [chunkLoop] at hg
    by_cases h : cnt + sentence_words s > chunk_size ∧ cur ≠ []
    · rw [if_pos h] at hg
      refine ih _ _ _ ?_ g hg
      intro g2 hg2
      rcases List.mem_append.mp hg2 with hg2 | hg2
      · exact hchunks g2 hg2
      · have : g2 = cur := by simpa using hg2
        rw [this]
        exact h.2
    · rw [if_neg h] at hg
      exact ih _ _ _ hchunks g hg

/-- C4: for every input text (given by its sentence sequence) and every
chunk_size, chunk_text groups the sentences into an ordered list of
chunks whose concatenation reproduces exactly the original sentence
sequence (no loss, no duplication, order preserved), no chunk holds zero
sentences, and each returned chunk string is the single-space join of
its group of sentences. -/
theorem chunk_text_partition :
    ∀ (sentences : List String) (chunk_size : Nat),
      (chunkGroups sentences chunk_size).join = sentences
      ∧ (∀ chunk ∈ chunkGroups sentences chunk_size, chunk ≠ [])
      ∧ chunk_text sentences chunk_size
          = (chunkGroups sentences chunk_size).map
              (fun chunk => String.intercalate " " chunk) := by
  intro sentences chunk_size
  refine ⟨?_, ?_, rfl⟩
  · unfold chunkGroups
    rw [chunkLoop_join]
    simp
  · exact chunkLoop_ne_nil chunk_size sentences [] [] 0 (by simp)

theorem chunk_text_partition_witness :
    (chunkGroups ["One two three.", "Four five.", "Six."] 3).join
      = ["One two three.", "Four five.", "Six."] :=
  (chunk_text_partition ["One two three.", "Four five.", "Six."] 3).1

lemma chunkLoop_budget (chunk_size : Nat) :
    ∀ (ss : List String) (chunks : List (List String)) (cur : List String) (cnt : Nat),
      cnt = (cur.map sentence_words).sum →
      (∀ g ∈ chunks,
        (g.map sentence_words).sum ≤ chunk_size
          ∨ ∃ s, g = [s] ∧ chunk_size < sentence_words s) →
      (cur = [] ∨ (cur.map sentence_words).sum ≤ chunk_size
          ∨ ∃ s, cur = [s] ∧ chunk_size < sentence_words s) →
      ∀ g ∈ chunkLoop chunk_size ss chunks cur cnt,
        (g.map sentence_words).sum ≤ chunk_size
          ∨ ∃ s, g = [s] ∧ chunk_size < sentence_words s := by
  intro ss
  induction ss with
  | nil =>
    intro chunks cur cnt hcnt hchunks hcur g hg
    by_cases h : cur.isEmpty
    · rw [chunkLoop, if_pos h] at hg
      exact hchunks g hg
    · rw [chunkLoop, if_neg h] at hg
      rcases List.mem_append.mp hg with hg | hg
      · exact hchunks g hg
      · have hgcur : g = cur := by simpa using hg
        rw [hgcur]
        rcases hcur with hnil | hok
        · exact absurd hnil (by simpa [List.isEmpty_iff] using h)
        · exact hok
  | cons s rest ih =>
    intro chunks cur cnt hcnt hchunks hcur g hg
    rw [chunkLoop] at hg
    by_cases h : cnt + sentence_words s > chunk_size ∧ cur ≠ []
    · rw [if_pos h] at hg
      refine ih _ _ _ (by simp) ?_ ?_ g hg
      · intro g2 hg2
        rcases List.mem_append.mp hg2 with hg2 | hg2
        · exact hchunks g2 hg2
        · have : g2 = cur := by simpa using hg2
          rw [this]
          rcases hcur with hnil | hok
          · exact absurd hnil h.2
          · exact hok
      · rcases Nat.lt_or_ge chunk_size (sentence_words s) with hbig | hsmall
        · exact Or.inr (Or.inr ⟨s, rfl, hbig⟩)
        · exact Or.inr (Or.inl (by simpa using hsmall))
    · rw [if_neg h] at hg
      push_neg at h
      refine ih _ _ _ (by simp [hcnt]) hchunks ?_ g hg
      by_cases hnil : cur = []
      · rcases Nat.lt_or_ge chunk_size (sentence_words s) with hbig | hsmall
        · exact Or.inr (Or.inr ⟨s, by simp [hnil], by simpa using hbig⟩)
        · exact Or.inr (Or.inl (by simp [hnil]; omega))
      · have hle : cnt + sentence_words s ≤ chunk_size := by
          rcases Nat.lt_or_ge chunk_size (cnt + sentence_words s) with hgt | hle2
          · exact absurd hnil (by simpa using h hgt)
          · exact hle2
        refine Or.inr (Or.inl ?_)
        simp only [List.map_append, List.sum_append, List.map_cons, List.sum_cons]
        simp [← hcnt]
        omega

/-- C5: for every input text (given by its sentence sequence) and every
chunk_size at least 1, every chunk produced by chunk_text has total word
count at most chunk_size, except a chunk consisting of a single sentence
whose own word count exceeds chunk_size, which is emitted alone as its
own chunk. -/
theorem chunk_text_soft_budget (sentences : List String) (chunk_size : Nat)
    (_hsz : 1 ≤ chunk_size) (chunk : List String)
    (hc : chunk ∈ chunkGroups sentences chunk_size) :
    (chunk.map sentence_words).sum ≤ chunk_size
      ∨ ∃ s, chunk = [s] ∧ chunk_size < sentence_words s :=
  chunkLoop_budget chunk_size sentences [] [] 0 rfl (by simp) (Or.inl rfl) chunk hc

theorem chunk_text_soft_budget_witness :
    (["One two three."] : List String) ∈ chunkGroups ["One two three.", "Four."] 2
      ∧ (((["One two three."] : List String).map sentence_words).sum ≤ 2
          ∨ ∃ s, (["One two three."] : List String) = [s] ∧ 2 < sentence_words s) :=
  ⟨by decide, chunk_text_soft_budget ["One two three.", "Four."] 2 (by decide)
    ["One two three."] (by decide)⟩

/-! ## Extractive summary sentence selection (src/summarization.py)

Both paths of generate_summary_extractive select the leading slice of a
score-descending sentence ranking, but neither path ranks all N
transcript sentences. The heuristic fallback path filters and computes
its target from the filtered count:

  scored_sentences = [(s, score_sentence(s)) for s in sentences
                      if len(s.split()) > 5]
  target_sentences = max(3, len(scored_sentences) // 3)
  sorted_sentences = sorted(scored_sentences, key=..., reverse=True)
  selected_sentences = [s for s, score in sorted_sentences[:target_sentences]]

The spaCy path computes target_sentences = max(3, N // 3) from the
total sentence count N of the document, but its sentence_scores dict
(and hence the ranking) holds only the sentences containing at least
one frequency-scored word.

The float scores and the spaCy scoring are external to the embedding;
what the ranking is, element-wise, is fully determined up to order, so
the sorted list is modelled as an arbitrary permutation of the scored
sentences (fallback path) or an arbitrary pool list (spaCy path).
-/

def target_sentences (count : Nat) : Nat := max 3 (count / 3)

def select_top_sentences (sorted_sentences : List String) (count : Nat) :
    List String :=
  sorted_sentences.take (target_sentences count)

/-- The sentences that receive a score on the heuristic fallback path:
only those with more than 5 words enter scored_sentences. -/
def fallback_scored_sentences (sentences : List String) : List String :=
  sentences.filter (fun s => decide (5 < sentence_words s))

/-- The fallback-path selection: the leading slice of the ranking, with
the target computed from the filtered count len(scored_sentences). -/
def fallback_selected (sorted_sentences : List String) (sentences : List String) :
    List String :=
  select_top_sentences sorted_sentences (fallback_scored_sentences sentences).length

/-- C6 fails on the code: a transcript of four sentences (N = 4 ≥ 3) in
which every sentence has at most 5 words leaves the fallback path with
an empty scored ranking, so the selection returns no sentences at all,
not at least 3. -/
theorem extractive_selection_count_counterexample :
    3 ≤ (["One two.", "Three four.", "Five six.", "Seven eight."] : List String).length
    ∧ fallback_scored_sentences
        ["One two.", "Three four.", "Five six.", "Seven eight."] = []
    ∧ (fallback_selected
        (fallback_scored_sentences ["One two.", "Three four.", "Five six.", "Seven eight."])
        ["One two.", "Three four.", "Five six.", "Seven eight."]).length < 3 := by
  decide

/-- C6 (amended): the extractive selection draws on the scored sentences
only. On the heuristic fallback path, where only sentences with more
than 5 words are scored and the target max(3, M // 3) is computed from
the scored count M, every score-descending ranking (any permutation of
the scored sentences) yields at least 3 selected sentences whenever
M ≥ 3, and yields the entire ranking whenever M < 3. On the
NLP-pipeline path, whose ranking holds only the sentences containing a
scored word while the target is computed from some total count, at
least 3 sentences are selected whenever the ranking holds at least 3,
and the entire ranking is returned whenever it holds at most 3. When
every sentence is scored, this specializes to the original claim. -/
theorem extractive_selection_scored_pool (sentences ranking : List String)
    (hperm : ranking.Perm (fallback_scored_sentences sentences))
    (pool : List String) (total : Nat) :
    (3 ≤ (fallback_scored_sentences sentences).length →
        3 ≤ (fallback_selected ranking sentences).length)
    ∧ ((fallback_scored_sentences sentences).length < 3 →
        fallback_selected ranking sentences = ranking)
    ∧ (3 ≤ pool.length → 3 ≤ (select_top_sentences pool total).length)
    ∧ (pool.length ≤ 3 → select_top_sentences pool total = pool) := by
  have hlen : ranking.length = (fallback_scored_sentences sentences).length :=
    hperm.length_eq
  refine ⟨?_, ?_, ?_, ?_⟩
  · intro h3
    simp only [fallback_selected, select_top_sentences, target_sentences,
      List.length_take, hlen]
    omega
  · intro h3
    apply List.take_of_length_le
    simp only [target_sentences, hlen]
    omega
  · intro h3
    simp only [select_top_sentences, target_sentences, List.length_take]
    omega
  · intro h3
    apply List.take_of_length_le
    simp only [target_sentences]
    omega

theorem extractive_selection_scored_pool_witness :
    3 ≤ (fallback_selected
        (fallback_scored_sentences ["a b c d e f.", "g h i j k l.", "m n o p q r."])
        ["a b c d e f.", "g h i j k l.", "m n o p q r."]).length :=
  (extractive_selection_scored_pool
      ["a b c d e f.", "g h i j k l.", "m n o p q r."]
      (fallback_scored_sentences ["a b c d e f.", "g h i j k l.", "m n o p q r."])
      (List.Perm.refl _) ["x", "y", "z"] 9).1 (by decide)

/-! ## Link history (src/config.py and src/transcribe_yt.py)

save_link_to_history builds a history entry, inserts it at position 0
of link_history and truncates the list to its first 50 elements:

  config["link_history"].insert(0, history_entry)
  config["link_history"] = config["link_history"][:50]
-/

structure HistoryEntry where
  id : String
  url : String
  title : String
  timestamp : String
deriving DecidableEq

/-- One call of save_link_to_history, acting on the link_history list. -/
def push_history (history_entry : HistoryEntry) (link_history : List HistoryEntry) :
    List HistoryEntry :=
  (history_entry :: link_history).take 50

/-- A sequence of save_link_to_history calls, oldest first. -/
def run_history (entries : List HistoryEntry) (link_history : List HistoryEntry) :
    List HistoryEntry :=
  entries.foldl (fun h e => push_history e h) link_history

lemma take_append_absorb {α : Type} (n : Nat) (xs ys : List α) :
    (xs ++ ys.take n).take n = (xs ++ ys).take n := by
  rw [List.take_append_eq_append_take, List.take_append_eq_append_take,
    List.take_take]
  have hmin : min (n - xs.length) n = n - xs.length := by omega
  rw [hmin]

lemma run_history_eq (entries : List HistoryEntry) :
    ∀ link_history : List HistoryEntry, entries ≠ [] →
      run_history entries link_history =
        (entries.reverse ++ link_history).take 50 := by
  induction entries with
  | nil => intro _ h; exact absurd rfl h
  | cons e rest ih =>
    intro link_history _
    rcases hrest : rest with _ | ⟨r, rs⟩
    · simp [run_history, push_history]
    · rw [← hrest]
      have hne : rest ≠ [] := by rw [hrest]; exact List.cons_ne_nil _ _
      have hstep : run_history (e :: rest) link_history
          = run_history rest (push_history e link_history) := by
        simp [run_history]
      rw [hstep, ih _ hne]
      unfold push_history
      rw [take_append_absorb]
      simp

/-- C7: the link_history list after any save_link_to_history call has
length at most 50 and carries the new entry at position 0
(most-recent-first); and for every starting configuration, appending a
sequence of 50 or more entries retains exactly the 50 most recent ones
in most-recent-first order, with all older entries (and any initial
content) evicted. -/
theorem link_history_bounded (e : HistoryEntry) (hist : List HistoryEntry)
    (entries : List HistoryEntry) (start : List HistoryEntry)
    (h50 : 50 ≤ entries.length) :
    (push_history e hist).length ≤ 50
    ∧ (push_history e hist).head? = some e
    ∧ run_history entries start = (entries.reverse).take 50 := by
  refine ⟨?_, ?_, ?_⟩
  · simp [push_history]
  · show ((e :: hist).take (49 + 1)).head? = some e
    rw [List.take_succ_cons]
    rfl
  · have hne : entries ≠ [] := by
      intro h
      rw [h] at h50
      simp at h50
    rw [run_history_eq entries start hne]
    apply List.take_append_of_le_length
    simp
    omega

theorem link_history_bounded_witness :
    run_history (List.replicate 51 (HistoryEntry.mk "i" "u" "t" "s")) []
      = ((List.replicate 51 (HistoryEntry.mk "i" "u" "t" "s")).reverse).take 50 :=
  (link_history_bounded (HistoryEntry.mk "i" "u" "t" "s") []
    (List.replicate 51 (HistoryEntry.mk "i" "u" "t" "s")) []
    (by simp)).2.2

/-! ## Formatting fallback (src/summarization.py)

apply_ollama_formatting posts the summary to the local daemon; the HTTP
outcome is modelled as none (requests.RequestException raised) or
some content (the response text, possibly empty):

  formatted_summary = result.get("message", ...).get("content", "")
  if formatted_summary: return formatted_summary
  else: return summary_text          # empty response
  except requests.RequestException: return summary_text
-/

def apply_ollama_formatting (summary_text : String)
    (response_content : Option String) : String :=
  match response_content with
  | some formatted_summary =>
    if formatted_summary ≠ "" then formatted_summary else summary_text
  | none => summary_text

/-- apply_ollama_formatting_if_enabled wraps the call in a further
try/except that also falls back to the unformatted text. -/
def apply_ollama_formatting_if_enabled (summary_text : String)
    (use_ollama_formatting : Bool) (response_content : Option String) : String :=
  if use_ollama_formatting then
    apply_ollama_formatting summary_text response_content
  else summary_text

/-- C9: for every summary text, if the optional post-formatting pass
fails (the request raises) or returns empty output, the value returned
to the caller is the pre-formatting summary text unchanged, on the
direct call and on the flag-guarded wrapper alike; no error propagates,
both functions being total. -/
theorem ollama_formatting_fallback (summary_text : String)
    (response_content : Option String)
    (hfail : response_content = none ∨ response_content = some "") :
    apply_ollama_formatting summary_text response_content = summary_text
    ∧ ∀ use_ollama_formatting : Bool,
        apply_ollama_formatting_if_enabled summary_text use_ollama_formatting
          response_content = summary_text := by
  have hbase : apply_ollama_formatting summary_text response_content = summary_text := by
    rcases hfail with h | h
    · rw [h]
      rfl
    · rw [h]
      simp [apply_ollama_formatting]
  refine ⟨hbase, ?_⟩
  intro b
  cases b
  · rfl
  · exact hbase

theorem ollama_formatting_fallback_witness :
    apply_ollama_formatting "The summary." none = "The summary." :=
  (ollama_formatting_fallback "The summary." none (Or.inl rfl)).1

/-! ## Configuration (src/config.py)

The configuration is a JSON object; it is modelled as an insertion-ordered
association list of keys and JSON values, matching the Python dict:
lookup finds the first binding, assignment replaces the value of an
existing key in place and appends a new key at the end. save_config
followed by load_config writes and re-reads the same JSON object, so the
file round trip is the identity on the mapping and what remains of
load_config is the merge of the missing default keys:

  for key, value in default_config.items():
      if key not in config:
          config[key] = value
-/

inductive CVal where
  | null
  | bool (b : Bool)
  | int (n : Int)
  | str (s : String)
  | list (entries : List CVal)

def cfgLookup : List (String × CVal) → String → Option CVal
  | [], _ => none
  | p :: rest, key => if p.1 = key then some p.2 else cfgLookup rest key

def cfgContains (config : List (String × CVal)) (key : String) : Bool :=
  config.any (fun p => p.1 == key)

def cfgSet : List (String × CVal) → String → CVal → List (String × CVal)
  | [], key, v => [(key, v)]
  | p :: rest, key, v =>
    if p.1 = key then (key, v) :: rest else p :: cfgSet rest key v

/-- default_config of load_config (src/config.py). -/
def default_config : List (String × CVal) :=
  [("deepseek_api_key", CVal.null),
   ("ollama_model", CVal.str "vicuna:7b"),
   ("ollama_formatting_model", CVal.str "nous-hermes2-mixtral:latest"),
   ("use_ollama_formatting", CVal.bool true),
   ("chunk_duration", CVal.int 300),
   ("overlap_duration", CVal.int 30),
   ("summary_chunk_size", CVal.null),
   ("link_history", CVal.list [])]

/-- The defaults-merging loop of load_config, applied to the mapping
read back from the saved file. -/
def merge_defaults (config : List (String × CVal)) : List (String × CVal) :=
  default_config.foldl
    (fun c kv => if cfgContains c kv.1 then c else c ++ [kv]) config

lemma cfgContains_isSome (config : List (String × CVal)) (key : String) :
    cfgContains config key = (cfgLookup config key).isSome := by
  induction config with
  | nil => rfl
  | cons p rest ih =>
    by_cases h : p.1 = key
    · simp [cfgContains, cfgLookup, h]
    · simp only [cfgContains, List.any_cons, cfgLookup, if_neg h]
      rw [← ih]
      simp [cfgContains, beq_eq_false_iff_ne, h]

lemma cfgLookup_append (m1 m2 : List (String × CVal)) (key : String) :
    cfgLookup (m1 ++ m2) key =
      match cfgLookup m1 key with
      | some v => some v
      | none => cfgLookup m2 key := by
  induction m1 with
  | nil => simp [cfgLookup]
  | cons p rest ih =>
    by_cases h : p.1 = key
    · simp [cfgLookup, h]
    · simp only [List.cons_append, cfgLookup, if_neg h]
      exact ih

lemma merge_foldl_lookup :
    ∀ d : List (String × CVal), (d.map Prod.fst).Nodup →
      ∀ (m : List (String × CVal)) (key : String),
        cfgLookup
            (d.foldl (fun c kv => if cfgContains c kv.1 then c else c ++ [kv]) m)
            key =
          match cfgLookup m key with
          | some v => some v
          | none => cfgLookup d key := by
  intro d
  induction d with
  | nil =>
    intro _ m key
    cases h : cfgLookup m key <;> simp [cfgLookup, h]
  | cons kv rest ih =>
    intro hnd m key
    have hnd2 : ((kv :: rest).map Prod.fst).Nodup := hnd
    rw [List.map_cons, List.nodup_cons] at hnd2
    rw [List.foldl_cons, ih hnd2.2]
    by_cases hc : cfgContains m kv.1
    · rw [if_pos hc]
      by_cases hk : kv.1 = key
      · have hsome : (cfgLookup m key).isSome := by
          rw [← hk, ← cfgContains_isSome]
          exact hc
        obtain ⟨v, hv⟩ := Option.isSome_iff_exists.mp hsome
        simp [hv, cfgLookup, hk]
      · simp only [cfgLookup, if_neg hk]
    · rw [if_neg hc]
      by_cases hk : kv.1 = key
      · have hnone : cfgLookup m key = none := by
          cases h : cfgLookup m key with
          | none => rfl
          | some v =>
            exfalso
            apply hc
            rw [cfgContains_isSome, hk, h]
            rfl
        rw [cfgLookup_append, hnone]
        simp [cfgLookup, hk]
      · rw [cfgLookup_append]
        cases h : cfgLookup m key with
        | some v => simp [h, cfgLookup]
        | none => simp [h, cfgLookup, hk]

lemma cfgLookup_isSome_of_mem (l : List (String × CVal)) (p : String × CVal)
    (hp : p ∈ l) : (cfgLookup l p.1).isSome := by
  induction l with
  | nil => exact absurd hp (List.not_mem_nil _)
  | cons q rest ih =>
    by_cases h : q.1 = p.1
    · simp [cfgLookup, h]
    · rcases List.mem_cons.mp hp with hq | hq
      · exact absurd (by rw [hq]) h
      · simpa [cfgLookup, h] using ih hq

/-- C8: saving a configuration mapping and loading it back yields, for
every key, the explicitly saved value when the key was set (so explicit
values and unknown keys are preserved unchanged), and the default value
when it was not; in particular every recognized default key is present
after the load. -/
theorem config_roundtrip_defaults :
    ∀ (config : List (String × CVal)) (key : String),
      cfgLookup (merge_defaults config) key =
        (match cfgLookup config key with
         | some v => some v
         | none => cfgLookup default_config key)
      ∧ ∀ p ∈ default_config, (cfgLookup (merge_defaults config) p.1).isSome := by
  intro config key
  have hnd : (default_config.map Prod.fst).Nodup := by decide
  constructor
  · exact merge_foldl_lookup default_config hnd config key
  · intro p hp
    have heq : cfgLookup (merge_defaults config) p.1 =
        (match cfgLookup config p.1 with
         | some v => some v
         | none => cfgLookup default_config p.1) :=
      merge_foldl_lookup default_config hnd config p.1
    rw [heq]
    cases h : cfgLookup config p.1 with
    | some v => rfl
    | none => exact cfgLookup_isSome_of_mem default_config p hp

theorem config_roundtrip_defaults_witness :
    cfgLookup (merge_defaults [("user_key", CVal.str "kept")]) "chunk_duration" =
      (match cfgLookup [("user_key", CVal.str "kept")] "chunk_duration" with
       | some v => some v
       | none => cfgLookup default_config "chunk_duration") :=
  (config_roundtrip_defaults [("user_key", CVal.str "kept")] "chunk_duration").1

/-! ## save_link_to_history at the configuration level (src/config.py)

  config = load_config()
  ...
  if "link_history" not in config:
      config["link_history"] = []
  config["link_history"].insert(0, history_entry)
  config["link_history"] = config["link_history"][:50]
  save_config(config)

The built entry (uuid, url, title, timestamp) is an opaque JSON value
here. A non-list value under "link_history" would be a runtime type
error in the source; it is modelled as the empty history.
-/

def ensure_history (config : List (String × CVal)) : List (String × CVal) :=
  if cfgContains config "link_history" then config
  else cfgSet config "link_history" (CVal.list [])

def history_list (config : List (String × CVal)) : List CVal :=
  match cfgLookup config "link_history" with
  | some (CVal.list l) => l
  | _ => []

def save_link_to_history (history_entry : CVal) (config : List (String × CVal)) :
    List (String × CVal) :=
  cfgSet (ensure_history config) "link_history"
    (CVal.list ((history_entry :: history_list (ensure_history config)).take 50))

lemma cfgLookup_cfgSet_ne (c : List (String × CVal)) (k : String) (v : CVal)
    (key : String) (hk : key ≠ k) :
    cfgLookup (cfgSet c k v) key = cfgLookup c key := by
  have hk2 : ¬ k = key := fun h => hk h.symm
  induction c with
  | nil => simp [cfgSet, cfgLookup, hk2]
  | cons p rest ih =>
    by_cases h : p.1 = k
    · have hpkey : ¬ p.1 = key := by rw [h]; exact hk2
      simp [cfgSet, cfgLookup, h, hk2, hpkey]
    · by_cases h2 : p.1 = key
      · simp only [cfgSet, if_neg h, cfgLookup, if_pos h2]
      · simp only [cfgSet, if_neg h, cfgLookup, if_neg h2]
        exact ih

/-- C10: save_link_to_history modifies only the link_history key of the
configuration: after the call, every other key holds exactly the value
it had in the configuration loaded at the start of the call. -/
theorem save_link_to_history_frame (history_entry : CVal)
    (config : List (String × CVal)) (key : String)
    (hkey : key ≠ "link_history") :
    cfgLookup (save_link_to_history history_entry config) key =
      cfgLookup config key := by
  unfold save_link_to_history
  rw [cfgLookup_cfgSet_ne _ _ _ _ hkey]
  unfold ensure_history
  by_cases h : cfgContains config "link_history"
  · rw [if_pos h]
  · rw [if_neg h, cfgLookup_cfgSet_ne _ _ _ _ hkey]

theorem save_link_to_history_frame_witness :
    cfgLookup
        (save_link_to_history (CVal.str "entry")
          [("ollama_model", CVal.str "vicuna:7b")]) "ollama_model" =
      cfgLookup [("ollama_model", CVal.str "vicuna:7b")] "ollama_model" :=
  save_link_to_history_frame (CVal.str "entry")
    [("ollama_model", CVal.str "vicuna:7b")] "ollama_model" (by decide)
